import Mathlib

/-!
Verification development for the garupa-unpacker asset pipeline.

The repository (TypeScript) tracks versioned asset-bundle releases:
it diffs two path→hash manifests (`src/compare.ts`), downloads the
delta with retry/backoff (`src/getAssets.ts`), reassembles segmented
`.bytes`/`.acb` files (`src/mergeBytes.ts`) and deletes files whose
content hash did not change between two parallel trees
(`src/removeUnchangedFiles.ts`).

This file gives a shallow embedding of those functions: manifests are
association lists (insertion-ordered, like a JS `Map`), file contents
are `List Nat` byte lists, network and stream behaviour is an explicit
oracle per attempt, and the filesystem effect of each function is
returned as an explicit value.  Every definition is translated from the
TypeScript source; theorems below settle the specified properties.
-/

namespace Garupa

/-! ### Manifest maps (`src/compare.ts`)

A JS `Map<string,string>` is modelled by an insertion-ordered
association list with unique keys; `Map.set` overwrites in place or
appends. -/

/-- In-memory manifest: ordered list of (path, hash) pairs. -/
abbrev AssetMap := List (String × String)

/-- `Map.has`. -/
def hasKey (m : AssetMap) (k : String) : Bool :=
  m.any (fun kv => kv.1 = k)

/-- `Map.get` (`undefined` becomes `none`). -/
def getVal (m : AssetMap) (k : String) : Option String :=
  (m.find? (fun kv => kv.1 = k)).map (·.2)

/-- The key list of the map, in insertion order (`[...map.keys()]`). -/
def mapKeys (m : AssetMap) : List String :=
  m.map (·.1)

/-- `Map.set`: overwrite the existing binding in place, else append. -/
def mapSet (m : AssetMap) (k v : String) : AssetMap :=
  if hasKey m k then
    m.map (fun kv => if kv.1 = k then (k, v) else kv)
  else m ++ [(k, v)]

/-- JS `Array.prototype.sort()` on a string array: lexicographic order.
The source sorts the `added`/`changed` path arrays with it
(`compare.ts` lines 113–114). -/
def sortPaths (l : List String) : List String :=
  List.insertionSort (· ≤ ·) l

/-- The diff result `{ new: added, change: changed }` of `compareVersions`. -/
structure DiffResult where
  added : List String
  changed : List String
deriving DecidableEq, Repr

/-- The pure core of `compareVersions` (`compare.ts` lines 113–114):

    const added = [...newMap.keys()].filter(p => !oldMap.has(p)).sort();
    const changed = [...newMap.keys()]
        .filter(p => oldMap.has(p) && newMap.get(p) !== oldMap.get(p)).sort();
-/
def compareVersions (oldMap newMap : AssetMap) : DiffResult :=
  { added := sortPaths ((mapKeys newMap).filter (fun p => ¬ hasKey oldMap p))
    changed := sortPaths ((mapKeys newMap).filter
      (fun p => hasKey oldMap p ∧ getVal newMap p ≠ getVal oldMap p)) }

/-! ### Destination path resolution (`src/getAssets.ts`, `downloadFile`)

    const cleanPath = assetPath.startsWith("/") ? assetPath.substring(1) : assetPath;
    const savePath = path.join(saveRoot, cleanPath);

`path.join` concatenates the two paths with a separator and normalizes
the result, resolving `.` and `..` segments (a leading run of `..` that
cannot be resolved against a relative root is kept).  The model works at
the level of `/`-separated segment lists. -/

/-- Split a path string into its `/`-separated segments. -/
def splitPathAux : List Char → List Char → List String
  | [], cur => [String.mk cur.reverse]
  | c :: rest, cur =>
    if c = '/' then String.mk cur.reverse :: splitPathAux rest []
    else splitPathAux rest (c :: cur)

/-- Segments of a path string. -/
def splitPath (s : String) : List String :=
  splitPathAux s.data []

/-- `assetPath.startsWith("/") ? assetPath.substring(1) : assetPath`. -/
def stripLeadingSlash (s : String) : String :=
  match s.data with
  | '/' :: rest => String.mk rest
  | _ => s

/-- One step of `path.join`'s normalization: empty and `.` segments are
dropped, `..` consumes the previous segment when one is available and is
kept otherwise. -/
def normStep (acc : List String) (seg : String) : List String :=
  if seg = "" ∨ seg = "." then acc
  else if seg = ".." then
    match acc.getLast? with
    | none => [".."]
    | some lastSeg => if lastSeg = ".." then acc ++ [".."] else acc.dropLast
  else acc ++ [seg]

/-- `path.normalize` on a segment list. -/
def normalizeSegs (segs : List String) : List String :=
  segs.foldl normStep []

/-- Segments of `path.join(saveRoot, cleanPath)` as computed by
`downloadFile` (`getAssets.ts` lines 73–75). -/
def savePathSegs (saveRoot assetPath : String) : List String :=
  normalizeSegs (splitPath saveRoot ++ splitPath (stripLeadingSlash assetPath))

/-- Whether a resolved path lies inside the destination root. -/
def insideRoot (saveRoot : String) (segs : List String) : Bool :=
  (normalizeSegs (splitPath saveRoot)).isPrefixOf segs

/-- The destination path string used as filesystem key. -/
def joinedSavePath (saveRoot assetPath : String) : String :=
  String.intercalate "/" (savePathSegs saveRoot assetPath)

/-! ### Resilient download (`src/getAssets.ts`, `downloadFile`)

The network/stream behaviour of one `axios` GET attempt is an oracle
value.  On an HTTP error (403/404/5xx…) axios rejects before
`createWriteStream(savePath)` runs, so the file is untouched; on a
stream error the (truncated-then-partially-written) destination file
holds the partial body; on success it holds the full body. -/

/-- Outcome of one download attempt. -/
inductive AttemptOutcome where
  | success (body : List Nat)
  | httpError (status : Nat)
  | streamError (partialBytes : List Nat)
deriving DecidableEq, Repr

/-- Failures that `downloadFile` retries (everything except HTTP 403/404). -/
def retryableFailure : AttemptOutcome → Prop
  | .success _ => False
  | .httpError s => ¬(s = 403 ∨ s = 404)
  | .streamError _ => True

/-- Result of `downloadFile`: the returned boolean, the final content of
the destination path (`none` = no file), the number of attempts made and
the list of backoff delays slept (in seconds). -/
structure DLResult where
  ok : Bool
  file : Option (List Nat)
  attemptsMade : Nat
  delays : List ℚ
deriving Repr

/-- The retry loop of `downloadFile` (`getAssets.ts` lines 86–123):

    while (attempt < PER_FILE_RETRIES) {
        attempt++;
        try { ... GET ... pipe to createWriteStream(savePath) ...; return true; }
        catch (e) {
            if (status === 403 || status === 404) return false;
            if (attempt < PER_FILE_RETRIES) { await sleep(backoff); backoff *= 2; }
        }
    }
    return false;

`done` counts completed attempts, `remaining` the attempts still allowed. -/
def downloadLoop (outcomes : Nat → AttemptOutcome) :
    Nat → Nat → ℚ → Option (List Nat) → DLResult
  | done, 0, _, file => ⟨false, file, done, []⟩
  | done, rem + 1, backoff, file =>
    match outcomes done with
    | .success body => ⟨true, some body, done + 1, []⟩
    | .httpError s =>
      if s = 403 ∨ s = 404 then ⟨false, file, done + 1, []⟩
      else if rem = 0 then ⟨false, file, done + 1, []⟩
      else
        let r := downloadLoop outcomes (done + 1) rem (backoff * 2) file
        ⟨r.ok, r.file, r.attemptsMade, backoff :: r.delays⟩
    | .streamError part =>
      if rem = 0 then ⟨false, some part, done + 1, []⟩
      else
        let r := downloadLoop outcomes (done + 1) rem (backoff * 2) (some part)
        ⟨r.ok, r.file, r.attemptsMade, backoff :: r.delays⟩

/-- `PER_FILE_RETRIES` (`getAssets.ts` line 10). -/
def PER_FILE_RETRIES : Nat := 3

/-- `PER_FILE_BACKOFF_SECONDS` (`getAssets.ts` line 11). -/
def PER_FILE_BACKOFF_SECONDS : ℚ := 1

/-- `downloadFile` (`getAssets.ts` lines 66–124): skip when the
destination already exists, otherwise run the retry loop.  `fs` maps a
path string to the content of the file stored there, if any. -/
def downloadFile (fs : String → Option (List Nat)) (saveRoot assetPath : String)
    (outcomes : Nat → AttemptOutcome) : DLResult :=
  match fs (joinedSavePath saveRoot assetPath) with
  | some b => ⟨true, some b, 0, []⟩
  | none => downloadLoop outcomes 0 PER_FILE_RETRIES PER_FILE_BACKOFF_SECONDS none

/-! ### Segment reassembly (`src/mergeBytes.ts`, `mergeBytesFiles`)

A segment group is the parsed `Array<{ index, filepath }>` collected for
one `mapKey`; reading a member file either yields its bytes or fails.
`mergeBytesFiles` (lines 244–272) sorts the group by index, then either
stream-concatenates (when `parts.length > 1 || parts[0].index !== 0`) or
copies the single index-0 member.  During stream concatenation a reader
error rejects the promise; the write stream is neither closed nor is the
partially-written destination file removed. -/

/-- Result of reading one source segment. -/
inductive ReadOutcome where
  | ok (bytes : List Nat)
  | readErr
deriving DecidableEq, Repr

/-- One member of a segment group: `{ index, filepath }`, with the file
content behind the filepath. -/
structure Part where
  index : Nat
  data : ReadOutcome
deriving DecidableEq, Repr

/-- Bytes of a member (a failing member contributes nothing). -/
def partBytes (p : Part) : List Nat :=
  match p.data with
  | .ok b => b
  | .readErr => []

/-- `a.index - b.index` comparator order. -/
def partLE (a b : Part) : Prop := a.index ≤ b.index

/-- Strict index order on group members. -/
def partLT (a b : Part) : Prop := a.index < b.index

instance : DecidableRel partLE := fun a b => Nat.decLe a.index b.index

instance : DecidableRel partLT := fun a b => Nat.decLt a.index b.index

instance : IsTotal Part partLE := ⟨fun a b => Nat.le_total a.index b.index⟩

instance : IsTrans Part partLE := ⟨fun _ _ _ => Nat.le_trans⟩

instance : IsAntisymm Part partLT :=
  ⟨fun _ _ h1 h2 => absurd (Nat.lt_trans h1 h2) (Nat.lt_irrefl _)⟩

/-- `parts.sort((a, b) => a.index - b.index)` — a stable sort by index. -/
def sortParts (parts : List Part) : List Part :=
  List.insertionSort partLE parts

/-- Outcome of processing one group: the destination file's state. -/
inductive MergeResult where
  | merged (bytes : List Nat)
  | copied (bytes : List Nat)
  | failed (partialBytes : List Nat)
  | copyFailed
deriving DecidableEq, Repr

/-- The `pipeNext` loop: stream each part into the destination in order;
a reader error rejects, leaving the bytes written so far. -/
def streamConcat : List Part → List Nat → MergeResult
  | [], acc => .merged acc
  | p :: rest, acc =>
    match p.data with
    | .ok b => streamConcat rest (acc ++ b)
    | .readErr => .failed acc

/-- Per-group body of `mergeBytesFiles` (`mergeBytes.ts` lines 244–272):

    parts.sort((a, b) => a.index - b.index);
    if (parts.length > 1 || parts[0].index !== 0) { ...streamConcat... }
    else { await fs.copyFile(parts[0].filepath, outputPath); }
-/
def mergeBytesGroup (parts : List Part) : MergeResult :=
  let sorted := sortParts parts
  if sorted.length > 1 ∨ sorted.head?.map Part.index ≠ some 0 then
    streamConcat sorted []
  else
    match sorted with
    | [p] =>
      match p.data with
      | .ok b => .copied b
      | .readErr => .copyFailed
    | _ => .merged []

/-- Content of the destination path after the group is processed
(`none` = no file written there).  On a mid-stream failure the partial
output remains; on a `copyFile` failure nothing was finalized. -/
def finalFile : MergeResult → Option (List Nat)
  | .merged b => some b
  | .copied b => some b
  | .failed partialBytes => some partialBytes
  | .copyFailed => none

/-! ### Tree reconciliation (`src/removeUnchangedFiles.ts`)

A directory tree is modelled as the list of (relative path, content)
pairs produced by `walkDir` (the relative paths of a real walk are
pairwise distinct).  `removeUnchangedFiles(change_old, change)` builds a
`Map` from relative path to old file, hashes each shared path in both
trees and deletes the candidate file when the hashes agree.  The TS
function returns `Promise<void>`: the second component of the model's
result is that (trivial) return value; the first is the candidate tree
after the deletions. -/

/-- A directory tree: relative path → file content. -/
abbrev FileTree := List (String × List Nat)

/-- The relative paths of a tree. -/
def treeKeys (t : FileTree) : List String :=
  t.map (·.1)

/-- `Map.set` for trees (overwrite in place or append). -/
def setEntry (m : FileTree) (k : String) (v : List Nat) : FileTree :=
  if m.any (fun kv => kv.1 = k) then
    m.map (fun kv => if kv.1 = k then (k, v) else kv)
  else m ++ [(k, v)]

/-- The `relativeMap` built from the old tree (`removeUnchangedFiles.ts`
lines 118–122): one `Map.set` per walked file, so a repeated relative
path would keep its last occurrence. -/
def relativeMap (change_old : FileTree) : FileTree :=
  change_old.foldl (fun m kv => setEntry m kv.1 kv.2) []

/-- `Map.get` for trees. -/
def lookupTree (m : FileTree) (k : String) : Option (List Nat) :=
  (m.find? (fun kv => kv.1 = k)).map (·.2)

/-- `removeUnchangedFiles` (`removeUnchangedFiles.ts` lines 110–153):
for each candidate file whose relative path is in `relativeMap`, hash
both files and delete the candidate when the hashes agree.  `hash`
abstracts `md5(file bytes)`.  Returns the resulting candidate tree
together with the function's return value, which is `void`. -/
def removeUnchangedFiles (hash : List Nat → String)
    (change_old change : FileTree) : FileTree × Unit :=
  (change.filter (fun kv =>
    match lookupTree (relativeMap change_old) kv.1 with
    | none => true
    | some oldContent => ¬ (hash oldContent = hash kv.2)), ())

/-! ### Batch download (`src/getAssets.ts`, `downloadDiffAssets`) -/

/-- One enqueued fetch task: destination root and object identifier. -/
structure FetchTask where
  saveRoot : String
  assetPath : String
deriving DecidableEq, Repr

/-- The task list built by `downloadDiffAssets` (`getAssets.ts` lines
172–176): every `new` path into `<newRoot>/new`, every `change` path
into both `<newRoot>/change` and `<newRoot>/change_old`. -/
def diffTasks (newRoot : String) (diffNew diffChange : List String) :
    List FetchTask :=
  diffNew.map (fun f => ⟨newRoot ++ "/new", f⟩) ++
  diffChange.map (fun f => ⟨newRoot ++ "/change", f⟩) ++
  diffChange.map (fun f => ⟨newRoot ++ "/change_old", f⟩)

/-- The per-task booleans produced by the `downloadFile` calls (task `i`
uses attempt oracle `outcomes i`). -/
def runDiffTasks (fs : String → Option (List Nat))
    (outcomes : Nat → Nat → AttemptOutcome) (tasks : List FetchTask) :
    List Bool :=
  tasks.enum.map (fun it =>
    (downloadFile fs it.2.saveRoot it.2.assetPath (outcomes it.1)).ok)

/-- The object identifiers whose download terminally failed. -/
def failedTasks (fs : String → Option (List Nat))
    (outcomes : Nat → Nat → AttemptOutcome) (tasks : List FetchTask) :
    List String :=
  ((tasks.enum).filter (fun it =>
    ¬ (downloadFile fs it.2.saveRoot it.2.assetPath (outcomes it.1)).ok)).map
    (fun it => it.2.assetPath)

/-- `downloadDiffAssets` (`getAssets.ts` lines 126–183), modelled from
the point where the diff record and URL registry are already parsed.
When the registry resolves both versions it runs all tasks through
`Promise.all` and resolves with `undefined`, discarding the per-task
booleans; a missing registry entry makes `extractPrefix(undefined)`
throw before any download starts. -/
def downloadDiffAssets (urlMap : String → Option String)
    (oldVersion newVersion assetsDir : String)
    (diffNew diffChange : List String)
    (fs : String → Option (List Nat))
    (outcomes : Nat → Nat → AttemptOutcome) : Except String Unit :=
  match urlMap newVersion, urlMap oldVersion with
  | some _, some _ =>
    let tasks := diffTasks (assetsDir ++ "/" ++ newVersion) diffNew diffChange
    let _results := runDiffTasks fs outcomes tasks
    Except.ok ()
  | _, _ => Except.error "TypeError: Cannot read properties of undefined"

/-! ### Manifest line parsing (`src/compare.ts`, `extractPathAndHash`)

    function extractPathAndHash(line: string) {
        const hashMatch = line.match(/@([a-fA-F0-9]{64})/);
        if (!hashMatch) return null;
        const hashValue = hashMatch[1];
        const hashPos = hashMatch.index!;
        const validPart = line.substring(0, hashPos);
        const matches = [...validPart.matchAll(/[A-Za-z][A-Za-z0-9_\-./]*[A-Za-z0-9]/g)];
        if (!matches.length) return null;
        return { path: matches[matches.length - 1][0], hashValue };
    }

Lines are `List Char`.  The first regex is modelled by a left-to-right
scan for an `@` followed by 64 hex characters; the second (global,
greedy) by leftmost matching with maximal `[A-Za-z0-9_\-./]*` runs
backtracked to the last `[A-Za-z0-9]` character. -/

/-- `[A-Za-z]`. -/
def isLetterCh (c : Char) : Bool :=
  decide (('A' ≤ c ∧ c ≤ 'Z') ∨ ('a' ≤ c ∧ c ≤ 'z'))

/-- `[0-9]`. -/
def isDigitCh (c : Char) : Bool :=
  decide ('0' ≤ c ∧ c ≤ '9')

/-- `[a-fA-F0-9]`. -/
def isHexCh (c : Char) : Bool :=
  isDigitCh c || decide (('a' ≤ c ∧ c ≤ 'f') ∨ ('A' ≤ c ∧ c ≤ 'F'))

/-- `[A-Za-z0-9_\-./]`, the token's middle class. -/
def isMidCh (c : Char) : Bool :=
  isLetterCh c || isDigitCh c || decide (c = '_' ∨ c = '-' ∨ c = '.' ∨ c = '/')

/-- `[A-Za-z0-9]`, the token's final class. -/
def isEndCh (c : Char) : Bool :=
  isLetterCh c || isDigitCh c

/-- Scan for the first position whose character is `@` followed by 64
hex characters; return that position and the 64 captured characters. -/
def findHashAux : List Char → Nat → Option (Nat × List Char)
  | [], _ => none
  | c :: rest, i =>
    if c = '@' ∧ (rest.take 64).length = 64 ∧ (rest.take 64).all isHexCh
    then some (i, rest.take 64)
    else findHashAux rest (i + 1)

/-- `line.match(/@([a-fA-F0-9]{64})/)`: position of the `@` and the hash. -/
def findHash (l : List Char) : Option (Nat × List Char) :=
  findHashAux l 0

/-- Position (1-based) just after the last `[A-Za-z0-9]` character of a
run — the backtracking step of the greedy `[...]*[A-Za-z0-9]` suffix. -/
def lastEndPos : List Char → Option Nat
  | [] => none
  | c :: cs =>
    match lastEndPos cs with
    | some t => some (t + 1)
    | none => if isEndCh c then some 1 else none

/-- Length of the greedy token match starting at the head of the list,
if any: a letter, then the maximal middle-class run backtracked to its
last end-class character. -/
def matchTokenAt : List Char → Option Nat
  | [] => none
  | c :: rest =>
    if isLetterCh c then
      match lastEndPos (rest.takeWhile isMidCh) with
      | some t => some (t + 1)
      | none => none
    else none

/-- `validPart.matchAll(...)`: leftmost non-overlapping greedy matches.
The fuel argument (instantiated with the list length) makes the
recursion structural; every match consumes at least one character. -/
def tokensAuxF : Nat → List Char → List (List Char)
  | 0, _ => []
  | _ + 1, [] => []
  | fuel + 1, c :: rest =>
    match matchTokenAt (c :: rest) with
    | some len => (c :: rest).take len :: tokensAuxF fuel ((c :: rest).drop len)
    | none => tokensAuxF fuel rest

/-- All token matches of a line prefix, left to right. -/
def tokensOf (l : List Char) : List (List Char) :=
  tokensAuxF l.length l

/-- `extractPathAndHash` (`compare.ts` lines 26–36). -/
def extractPathAndHash (l : List Char) : Option (String × String) :=
  match findHash l with
  | none => none
  | some (pos, hx) =>
    match (tokensOf (l.take pos)).getLast? with
    | none => none
    | some t => some (String.mk t, String.mk hx)

/-- A path-like token in the spec's sense: a letter-initiated run of
letters, digits, `_`, `-`, `.`, `/` ending in a letter or digit. -/
def IsPathToken (t : List Char) : Prop :=
  ∃ c mid e, t = c :: (mid ++ [e]) ∧ isLetterCh c = true ∧
    (∀ m ∈ mid, isMidCh m = true) ∧ isEndCh e = true

/-- The token `t` occurs in `s` starting at position `i`. -/
def tokenOccursAt (s : List Char) (i : Nat) (t : List Char) : Prop :=
  IsPathToken t ∧ (s.drop i).take t.length = t

/-- `readFileToAssetMap` (`compare.ts` lines 38–57) on the lines of the
manifest file: one `Map.set` per parsed line, skipped lines contribute
nothing, and no error is raised for a map that stays empty. -/
def readFileToAssetMap (lines : List (List Char)) : AssetMap :=
  lines.foldl (fun m line =>
    match extractPathAndHash line with
    | some ph => mapSet m ph.1 ph.2
    | none => m) []

/-! Helper lemmas about the map model. -/

theorem hasKey_iff_mem_mapKeys (m : AssetMap) (k : String) :
    hasKey m k = true ↔ k ∈ mapKeys m := by
  simp [hasKey, mapKeys, List.any_eq_true, List.mem_map]

theorem mem_sortPaths (l : List String) (p : String) :
    p ∈ sortPaths l ↔ p ∈ l :=
  (List.perm_insertionSort _ l).mem_iff

theorem sortPaths_nodup {l : List String} (h : l.Nodup) : (sortPaths l).Nodup :=
  ((List.perm_insertionSort _ l).nodup_iff).mpr h

theorem sortPaths_sorted (l : List String) : (sortPaths l).Sorted (· ≤ ·) :=
  List.sorted_insertionSort _ l

/-- C1: for every pair of parsed manifests, `added` is exactly the set of
paths present in the new manifest and absent from the old one, `changed`
is exactly the set of paths present in both with differing hashes, the
two lists are disjoint, duplicate-free (given the `Map` invariant that
keys are unique), and both are sorted lexicographically by path. -/
theorem compareVersions_correct (oldMap newMap : AssetMap)
    (hn : (mapKeys newMap).Nodup) :
    (∀ p, p ∈ (compareVersions oldMap newMap).added ↔
        p ∈ mapKeys newMap ∧ p ∉ mapKeys oldMap) ∧
    (∀ p, p ∈ (compareVersions oldMap newMap).changed ↔
        p ∈ mapKeys newMap ∧ p ∈ mapKeys oldMap ∧
          getVal newMap p ≠ getVal oldMap p) ∧
    (∀ p, p ∈ (compareVersions oldMap newMap).added →
        p ∉ (compareVersions oldMap newMap).changed) ∧
    (compareVersions oldMap newMap).added.Nodup ∧
    (compareVersions oldMap newMap).changed.Nodup ∧
    (compareVersions oldMap newMap).added.Sorted (· ≤ ·) ∧
    (compareVersions oldMap newMap).changed.Sorted (· ≤ ·) := by
  have hadd : ∀ p, p ∈ (compareVersions oldMap newMap).added ↔
      p ∈ mapKeys newMap ∧ p ∉ mapKeys oldMap := by
    intro p
    simp only [compareVersions, mem_sortPaths, List.mem_filter, decide_eq_true_eq,
      ← hasKey_iff_mem_mapKeys, Bool.not_eq_true]
  have hch : ∀ p, p ∈ (compareVersions oldMap newMap).changed ↔
      p ∈ mapKeys newMap ∧ p ∈ mapKeys oldMap ∧
        getVal newMap p ≠ getVal oldMap p := by
    intro p
    simp only [compareVersions, mem_sortPaths, List.mem_filter, decide_eq_true_eq,
      ← hasKey_iff_mem_mapKeys]
  refine ⟨hadd, hch, ?_, ?_, ?_, sortPaths_sorted _, sortPaths_sorted _⟩
  · intro p hp hq
    exact ((hadd p).mp hp).2 ((hch p).mp hq).2.1
  · exact sortPaths_nodup (hn.filter _)
  · exact sortPaths_nodup (hn.filter _)

/-- Witness for `compareVersions_correct`: the spec's end-to-end example,
manifests A = {x.bin↦h1, y.bin↦h2} and B = {x.bin↦h1, y.bin↦h3, z.bin↦h4},
give added = [z.bin], changed = [y.bin]. -/
theorem compareVersions_correct_witness :
    (mapKeys [("x.bin", "h1"), ("y.bin", "h3"), ("z.bin", "h4")]).Nodup ∧
    ("z.bin" ∈ (compareVersions [("x.bin", "h1"), ("y.bin", "h2")]
        [("x.bin", "h1"), ("y.bin", "h3"), ("z.bin", "h4")]).added ↔
      "z.bin" ∈ mapKeys [("x.bin", "h1"), ("y.bin", "h3"), ("z.bin", "h4")] ∧
      "z.bin" ∉ mapKeys [("x.bin", "h1"), ("y.bin", "h2")]) :=
  ⟨by decide,
   (compareVersions_correct [("x.bin", "h1"), ("y.bin", "h2")]
      [("x.bin", "h1"), ("y.bin", "h3"), ("z.bin", "h4")] (by decide)).1 "z.bin"⟩

/-! Path lemmas. -/

theorem foldl_normStep_no_dotdot :
    ∀ (rel : List String) (acc : List String),
      (∀ s ∈ rel, s ≠ "..") →
      rel.foldl normStep acc = acc ++ rel.filter (fun s => ¬(s = "" ∨ s = ".")) := by
  intro rel
  induction rel with
  | nil => intro acc _; simp
  | cons s rest ih =>
    intro acc hall
    have hs : s ≠ ".." := hall s (List.mem_cons_self _ _)
    have hrest : ∀ t ∈ rest, t ≠ ".." := fun t ht => hall t (List.mem_cons_of_mem _ ht)
    by_cases hdrop : s = "" ∨ s = "."
    · have hstep : normStep acc s = acc := by simp [normStep, hdrop]
      simp only [List.foldl_cons, hstep, ih _ hrest, List.filter_cons]
      simp [hdrop]
    · have hstep : normStep acc s = acc ++ [s] := by
        simp [normStep, hdrop, hs]
      simp only [List.foldl_cons, hstep, ih _ hrest, List.filter_cons]
      simp [hdrop]

theorem isPrefixOf_append :
    ∀ (l₁ l₂ : List String), l₁.isPrefixOf (l₁ ++ l₂) = true := by
  intro l₁ l₂
  induction l₁ with
  | nil => simp [List.isPrefixOf]
  | cons a l ih => simpa [List.isPrefixOf] using ih

/-- C9 (amended, positive part): an object identifier whose segments
contain no `..` component resolves to a destination inside the
destination root. -/
theorem savePath_inside_root_of_no_dotdot (saveRoot assetPath : String)
    (h : ∀ seg ∈ splitPath (stripLeadingSlash assetPath), seg ≠ "..") :
    insideRoot saveRoot (savePathSegs saveRoot assetPath) = true := by
  unfold insideRoot savePathSegs normalizeSegs
  rw [List.foldl_append, foldl_normStep_no_dotdot _ _ h]
  exact isPrefixOf_append _ _

/-- Witness for `savePath_inside_root_of_no_dotdot` at a traversal-free
identifier. -/
theorem savePath_inside_root_of_no_dotdot_witness :
    (∀ seg ∈ splitPath (stripLeadingSlash "a/b.bin"), seg ≠ "..") ∧
    insideRoot "save" (savePathSegs "save" "a/b.bin") = true :=
  ⟨by decide, savePath_inside_root_of_no_dotdot "save" "a/b.bin" (by decide)⟩

/-- C9 counterexample: the identifier `../secret` is neither rejected
nor normalized back inside the root — `path.join` resolves the `..`
against the destination root itself, so the write lands outside it
(at `secret`, a sibling of `save`). -/
theorem savePath_escapes_root :
    insideRoot "save" (savePathSegs "save" "../secret") = false ∧
    savePathSegs "save" "../secret" = ["secret"] := by
  constructor <;> decide

/-! Download retry lemmas. -/

theorem backoff_delays_succ (r : Nat) (backoff : ℚ) :
    (List.range (r + 1)).map (fun i => 2 ^ i * backoff)
      = backoff :: (List.range r).map (fun i => 2 ^ i * (backoff * 2)) := by
  rw [List.range_succ_eq_map, List.map_cons, List.map_map]
  refine congrArg₂ List.cons (by norm_num) ?_
  refine List.map_congr_left (fun a _ => ?_)
  simp only [Function.comp_apply, Nat.succ_eq_add_one, pow_succ]
  ring

theorem downloadLoop_retry_exhaust (outcomes : Nat → AttemptOutcome) :
    ∀ (rem done : Nat) (backoff : ℚ) (file : Option (List Nat)), 0 < rem →
      (∀ i, done ≤ i → i < done + rem → retryableFailure (outcomes i)) →
      (downloadLoop outcomes done rem backoff file).ok = false ∧
      (downloadLoop outcomes done rem backoff file).attemptsMade = done + rem ∧
      (downloadLoop outcomes done rem backoff file).delays
        = (List.range (rem - 1)).map (fun i => 2 ^ i * backoff) := by
  intro rem
  induction rem with
  | zero => intro done backoff file h; omega
  | succ r ih =>
    intro done backoff file _ hall
    have hdone := hall done (le_refl _) (by omega)
    cases houtcome : outcomes done with
    | success body => rw [houtcome] at hdone; exact absurd hdone (by simp [retryableFailure])
    | httpError s =>
      rw [houtcome] at hdone
      have hterm : ¬(s = 403 ∨ s = 404) := hdone
      cases r with
      | zero => simp [downloadLoop, houtcome, hterm]
      | succ r' =>
        have hrec := ih (done + 1) (backoff * 2) file (by omega)
          (fun i h1 h2 => hall i (by omega) (by omega))
        rw [downloadLoop, houtcome]
        simp only [if_neg hterm, if_neg (Nat.succ_ne_zero r')]
        refine ⟨hrec.1, by rw [hrec.2.1]; omega, ?_⟩
        have : r' + 1 + 1 - 1 = (r' + 1 - 1) + 1 := by omega
        rw [hrec.2.2, this, backoff_delays_succ]
    | streamError part =>
      cases r with
      | zero => simp [downloadLoop, houtcome]
      | succ r' =>
        have hrec := ih (done + 1) (backoff * 2) (some part) (by omega)
          (fun i h1 h2 => hall i (by omega) (by omega))
        rw [downloadLoop, houtcome]
        simp only [if_neg (Nat.succ_ne_zero r')]
        refine ⟨hrec.1, by rw [hrec.2.1]; omega, ?_⟩
        have : r' + 1 + 1 - 1 = (r' + 1 - 1) + 1 := by omega
        rw [hrec.2.2, this, backoff_delays_succ]

theorem downloadLoop_all_streamError (outcomes : Nat → AttemptOutcome)
    (ps : Nat → List Nat) :
    ∀ (rem done : Nat) (backoff : ℚ) (file : Option (List Nat)), 0 < rem →
      (∀ i, done ≤ i → i < done + rem → outcomes i = .streamError (ps i)) →
      (downloadLoop outcomes done rem backoff file).ok = false ∧
      (downloadLoop outcomes done rem backoff file).file
        = some (ps (done + rem - 1)) := by
  intro rem
  induction rem with
  | zero => intro done backoff file h; omega
  | succ r ih =>
    intro done backoff file _ hall
    have hdone := hall done (le_refl _) (by omega)
    cases r with
    | zero => simp [downloadLoop, hdone]
    | succ r' =>
      have hrec := ih (done + 1) (backoff * 2) (some (ps done)) (by omega)
        (fun i h1 h2 => hall i (by omega) (by omega))
      rw [downloadLoop, hdone]
      simp only [if_neg (Nat.succ_ne_zero r')]
      refine ⟨hrec.1, ?_⟩
      rw [hrec.2]
      congr 2
      omega

/-- C5: a 403 or 404 response terminates a task immediately — the loop
returns `false` after that attempt with no further attempt and no
backoff sleep, and the destination file is untouched; every other
failure is retried up to `R` attempts total, sleeping
`B, 2B, 4B, …, 2^(R-2)·B` seconds between consecutive attempts
(backoff starts at `B` and doubles after each failed attempt).
`downloadFile` runs the loop with `R = PER_FILE_RETRIES` and
`B = PER_FILE_BACKOFF_SECONDS` when the destination is absent. -/
theorem downloadFile_retry_policy (outcomes : Nat → AttemptOutcome) :
    (∀ (done rem : Nat) (backoff : ℚ) (file : Option (List Nat)) (s : Nat),
      outcomes done = .httpError s → (s = 403 ∨ s = 404) →
      downloadLoop outcomes done (rem + 1) backoff file
        = ⟨false, file, done + 1, []⟩) ∧
    (∀ (R : Nat) (B : ℚ), 0 < R →
      (∀ i, i < R → retryableFailure (outcomes i)) →
      (downloadLoop outcomes 0 R B none).ok = false ∧
      (downloadLoop outcomes 0 R B none).attemptsMade = R ∧
      (downloadLoop outcomes 0 R B none).delays
        = (List.range (R - 1)).map (fun i => 2 ^ i * B)) ∧
    (∀ (fs : String → Option (List Nat)) (saveRoot assetPath : String),
      fs (joinedSavePath saveRoot assetPath) = none →
      downloadFile fs saveRoot assetPath outcomes
        = downloadLoop outcomes 0 PER_FILE_RETRIES PER_FILE_BACKOFF_SECONDS none) := by
  refine ⟨?_, ?_, ?_⟩
  · intro done rem backoff file s hout hs
    simp [downloadLoop, hout, hs]
  · intro R B hR hall
    have := downloadLoop_retry_exhaust outcomes R 0 B none hR
      (fun i h1 h2 => hall i (by omega))
    simpa using this
  · intro fs saveRoot assetPath hfs
    simp [downloadFile, hfs]

/-- Witness for `downloadFile_retry_policy`: a constant-404 oracle stops
after one attempt with no sleeps; a constant-500 oracle is retried all
3 attempts with sleeps of 1 s and 2 s; a missing destination enters the
loop. -/
theorem downloadFile_retry_policy_witness :
    (downloadLoop (fun _ => .httpError 404) 0 (2 + 1) 1 none
      = ⟨false, none, 0 + 1, []⟩) ∧
    ((downloadLoop (fun _ => .httpError 500) 0 3 1 none).ok = false ∧
     (downloadLoop (fun _ => .httpError 500) 0 3 1 none).attemptsMade = 3 ∧
     (downloadLoop (fun _ => .httpError 500) 0 3 1 none).delays
       = (List.range (3 - 1)).map (fun i => 2 ^ i * 1)) ∧
    (downloadFile (fun _ => none) "save" "a.bin" (fun _ => .httpError 500)
      = downloadLoop (fun _ => .httpError 500) 0 PER_FILE_RETRIES
          PER_FILE_BACKOFF_SECONDS none) :=
  ⟨(downloadFile_retry_policy (fun _ => .httpError 404)).1 0 2 1 none 404 rfl (.inr rfl),
   (downloadFile_retry_policy (fun _ => .httpError 500)).2.1 3 1 (by norm_num)
     (fun i _ => by simp [retryableFailure]),
   (downloadFile_retry_policy (fun _ => .httpError 500)).2.2 (fun _ => none)
     "save" "a.bin" rfl⟩

/-- C2 counterexample: `downloadFile` opens `createWriteStream(savePath)`
directly at the final destination path (no temporary path).  With every
attempt failing mid-stream after writing one byte, the task ends in
failure and the partial file `[7]` sits at the final destination path. -/
theorem downloadFile_leaves_partial_at_destination :
    (downloadFile (fun _ => none) "save" "a.bin" (fun _ => .streamError [7])).ok
      = false ∧
    (downloadFile (fun _ => none) "save" "a.bin" (fun _ => .streamError [7])).file
      = some [7] := by
  constructor <;> rfl

/-- C2 (amended): for a task whose destination does not yet exist, the
response body is written directly at the destination path; when every
attempt fails mid-stream, the partial body of the last attempt remains
at the final destination path after the task fails. -/
theorem downloadFile_writes_directly_at_destination
    (fs : String → Option (List Nat)) (saveRoot assetPath : String)
    (outcomes : Nat → AttemptOutcome) (ps : Nat → List Nat)
    (hfs : fs (joinedSavePath saveRoot assetPath) = none)
    (hstream : ∀ i, i < PER_FILE_RETRIES → outcomes i = .streamError (ps i)) :
    (downloadFile fs saveRoot assetPath outcomes).ok = false ∧
    (downloadFile fs saveRoot assetPath outcomes).file
      = some (ps (PER_FILE_RETRIES - 1)) := by
  have h := downloadLoop_all_streamError outcomes ps PER_FILE_RETRIES 0
    PER_FILE_BACKOFF_SECONDS none (by simp [PER_FILE_RETRIES])
    (fun i h1 h2 => hstream i (by omega))
  simpa [downloadFile, hfs] using h

/-- Witness for `downloadFile_writes_directly_at_destination`. -/
theorem downloadFile_writes_directly_at_destination_witness :
    ((fun _ => none : String → Option (List Nat))
        (joinedSavePath "save" "a.bin") = none) ∧
    (downloadFile (fun _ => none) "save" "a.bin"
        (fun _ => .streamError [3, 4])).ok = false ∧
    (downloadFile (fun _ => none) "save" "a.bin"
        (fun _ => .streamError [3, 4])).file
      = some ((fun _ => [3, 4] : Nat → List Nat) (PER_FILE_RETRIES - 1)) :=
  ⟨rfl, downloadFile_writes_directly_at_destination (fun _ => none) "save" "a.bin"
    (fun _ => .streamError [3, 4]) (fun _ => [3, 4]) rfl (fun _ _ => rfl)⟩

/-! Merge lemmas. -/

theorem streamConcat_all_ok :
    ∀ (l : List Part) (acc : List Nat), (∀ p ∈ l, p.data ≠ .readErr) →
      streamConcat l acc = .merged (acc ++ (l.map partBytes).flatten) := by
  intro l
  induction l with
  | nil => intro acc _; simp [streamConcat]
  | cons p rest ih =>
    intro acc hall
    have hp := hall p (List.mem_cons_self _ _)
    cases hd : p.data with
    | readErr => exact absurd hd hp
    | ok b =>
      simp only [streamConcat, hd]
      rw [ih (acc ++ b) (fun q hq => hall q (List.mem_cons_of_mem _ hq))]
      simp [partBytes, hd]

theorem streamConcat_stops_at_readErr :
    ∀ (pre : List Part) (q : Part) (post : List Part) (acc : List Nat),
      (∀ p ∈ pre, p.data ≠ .readErr) → q.data = .readErr →
      streamConcat (pre ++ q :: post) acc
        = .failed (acc ++ (pre.map partBytes).flatten) := by
  intro pre
  induction pre with
  | nil =>
    intro q post acc _ hq
    simp [streamConcat, hq]
  | cons p rest ih =>
    intro q post acc hall hq
    have hp := hall p (List.mem_cons_self _ _)
    cases hd : p.data with
    | readErr => exact absurd hd hp
    | ok b =>
      simp only [List.cons_append, streamConcat, hd, List.append_eq]
      rw [ih q post (acc ++ b) (fun r hr => hall r (List.mem_cons_of_mem _ hr)) hq]
      simp [partBytes, hd]

theorem sortParts_perm (parts : List Part) : (sortParts parts).Perm parts :=
  List.perm_insertionSort _ parts

theorem sortParts_sorted (parts : List Part) : (sortParts parts).Pairwise partLE :=
  List.sorted_insertionSort _ parts

/-- With pairwise-distinct indices, the stable sort result is the unique
strictly index-sorted arrangement. -/
theorem sortParts_eq_of_strict_sorted (parts arr : List Part)
    (hperm : arr.Perm parts) (hsorted : arr.Pairwise partLT) :
    sortParts parts = arr := by
  have hpermS : (sortParts parts).Perm arr := (sortParts_perm parts).trans hperm.symm
  have hnodupArr : (arr.map Part.index).Nodup := by
    have h1 : (arr.map Part.index).Pairwise (· < ·) := by
      rw [List.pairwise_map]
      exact hsorted.imp (fun h => h)
    exact h1.imp Nat.ne_of_lt
  have hnodupS : ((sortParts parts).map Part.index).Nodup :=
    ((hpermS.map Part.index).nodup_iff).mpr hnodupArr
  have hne : (sortParts parts).Pairwise (fun a b => a.index ≠ b.index) :=
    List.pairwise_map.mp hnodupS
  have hlt : (sortParts parts).Pairwise partLT := by
    have hand := (sortParts_sorted parts).and hne
    exact hand.imp (fun h => Nat.lt_of_le_of_ne h.1 h.2)
  exact List.eq_of_perm_of_sorted hpermS hlt hsorted

/-- With every member readable, the destination always ends up holding
the concatenation of the sorted members' bytes. -/
theorem finalFile_mergeBytesGroup_ok (parts : List Part)
    (hok : ∀ p ∈ parts, p.data ≠ .readErr) :
    finalFile (mergeBytesGroup parts)
      = some (((sortParts parts).map partBytes).flatten) := by
  have hokS : ∀ p ∈ sortParts parts, p.data ≠ .readErr :=
    fun p hp => hok p ((sortParts_perm parts).mem_iff.mp hp)
  unfold mergeBytesGroup
  by_cases hbranch : (sortParts parts).length > 1 ∨
      (sortParts parts).head?.map Part.index ≠ some 0
  · simp only [if_pos hbranch, streamConcat_all_ok _ [] hokS, finalFile,
      List.nil_append]
  · have hlen : ¬ ((sortParts parts).length > 1) := fun h => hbranch (Or.inl h)
    have hhead : (sortParts parts).head?.map Part.index = some 0 := by
      by_contra h
      exact hbranch (Or.inr h)
    rw [if_neg hbranch]
    match hs : sortParts parts with
    | [] => rw [hs] at hhead; simp at hhead
    | [p] =>
      have hp := hokS p (by rw [hs]; exact List.mem_cons_self _ _)
      have hidx : p.index = 0 := by
        rw [hs] at hhead; simpa using hhead
      cases hd : p.data with
      | readErr => exact absurd hd hp
      | ok b => simp [finalFile, hd, partBytes]
    | p :: q :: rest => rw [hs] at hlen; simp at hlen

/-- C6: when every member of a segment group is readable, the merged
output's byte content is the concatenation of the member files' bytes in
ascending order of numeric segment index (`arr` is any arrangement of
the group strictly sorted by index), and a group whose only member has
index 0 is produced by a straight copy (`fs.copyFile`), not by the
stream concatenation. -/
theorem mergeBytesGroup_ordered_concat (parts arr : List Part)
    (hok : ∀ p ∈ parts, p.data ≠ .readErr)
    (hperm : arr.Perm parts)
    (hsorted : arr.Pairwise partLT) :
    finalFile (mergeBytesGroup parts) = some ((arr.map partBytes).flatten) ∧
    (∀ p, parts = [p] → p.index = 0 →
      mergeBytesGroup parts = .copied (partBytes p)) := by
  constructor
  · rw [finalFile_mergeBytesGroup_ok parts hok,
      sortParts_eq_of_strict_sorted parts arr hperm hsorted]
  · intro p hp hidx
    subst hp
    have hp' := hok p (List.mem_cons_self _ _)
    cases hd : p.data with
    | readErr => exact absurd hd hp'
    | ok b =>
      simp [mergeBytesGroup, sortParts, partLE, hd, hidx, partBytes]

/-- Witness for `mergeBytesGroup_ordered_concat`: the spec's reassembly
example — segments `{2 ↦ "B", 0 ↦ "A", 1 ↦ ""}` merge to exactly
`"A" + "" + "B"`. -/
theorem mergeBytesGroup_ordered_concat_witness :
    (∀ p ∈ [Part.mk 2 (.ok [66]), Part.mk 0 (.ok [65]), Part.mk 1 (.ok [])],
      p.data ≠ .readErr) ∧
    ([Part.mk 0 (.ok [65]), Part.mk 1 (.ok []), Part.mk 2 (.ok [66])].Perm
      [Part.mk 2 (.ok [66]), Part.mk 0 (.ok [65]), Part.mk 1 (.ok [])]) ∧
    ([Part.mk 0 (.ok [65]), Part.mk 1 (.ok []),
        Part.mk 2 (.ok [66])].Pairwise partLT) ∧
    (finalFile (mergeBytesGroup
        [Part.mk 2 (.ok [66]), Part.mk 0 (.ok [65]), Part.mk 1 (.ok [])])
      = some (([Part.mk 0 (.ok [65]), Part.mk 1 (.ok []),
          Part.mk 2 (.ok [66])].map partBytes).flatten)) :=
  ⟨by decide, by decide, by decide,
   (mergeBytesGroup_ordered_concat
      [Part.mk 2 (.ok [66]), Part.mk 0 (.ok [65]), Part.mk 1 (.ok [])]
      [Part.mk 0 (.ok [65]), Part.mk 1 (.ok []), Part.mk 2 (.ok [66])]
      (by decide) (by decide) (by decide)).1⟩

/-- C3 counterexample: with segment index 1 unreadable mid-merge, the
merge rejects, but the partially-written output (the bytes of segment 0)
is still present at the destination path — the code neither closes the
write stream nor unlinks the file on a reader error, so an output file
does remain afterward. -/
theorem mergeBytesGroup_failure_leaves_partial_output :
    mergeBytesGroup [Part.mk 0 (.ok [65]), Part.mk 1 .readErr, Part.mk 2 (.ok [66])]
      = .failed [65] ∧
    finalFile (mergeBytesGroup
        [Part.mk 0 (.ok [65]), Part.mk 1 .readErr, Part.mk 2 (.ok [66])])
      ≠ none := by
  constructor <;> decide

/-- C3 (amended): if reading a source segment fails mid-merge, the merge
rejects with the error, but the partially-written output — the
concatenation of the segments already streamed — remains at the
destination path (it is not removed). -/
theorem mergeBytesGroup_failed_keeps_partial (parts pre post : List Part) (q : Part)
    (hsplit : sortParts parts = pre ++ q :: post)
    (hpre : ∀ p ∈ pre, p.data ≠ .readErr)
    (hq : q.data = .readErr)
    (hbranch : (sortParts parts).length > 1 ∨
      (sortParts parts).head?.map Part.index ≠ some 0) :
    mergeBytesGroup parts = .failed ((pre.map partBytes).flatten) ∧
    finalFile (mergeBytesGroup parts) ≠ none := by
  have hstream : mergeBytesGroup parts = streamConcat (sortParts parts) [] := by
    unfold mergeBytesGroup
    rw [if_pos hbranch]
  rw [hstream, hsplit, streamConcat_stops_at_readErr pre q post [] hpre hq]
  constructor
  · simp
  · simp [finalFile]

/-- Witness for `mergeBytesGroup_failed_keeps_partial`. -/
theorem mergeBytesGroup_failed_keeps_partial_witness :
    (sortParts [Part.mk 0 (.ok [65]), Part.mk 1 .readErr, Part.mk 2 (.ok [66])]
      = [Part.mk 0 (.ok [65])] ++ Part.mk 1 .readErr :: [Part.mk 2 (.ok [66])]) ∧
    (mergeBytesGroup [Part.mk 0 (.ok [65]), Part.mk 1 .readErr, Part.mk 2 (.ok [66])]
      = .failed (([Part.mk 0 (.ok [65])].map partBytes).flatten) ∧
     finalFile (mergeBytesGroup
        [Part.mk 0 (.ok [65]), Part.mk 1 .readErr, Part.mk 2 (.ok [66])])
      ≠ none) :=
  ⟨by decide,
   mergeBytesGroup_failed_keeps_partial
     [Part.mk 0 (.ok [65]), Part.mk 1 .readErr, Part.mk 2 (.ok [66])]
     [Part.mk 0 (.ok [65])] [Part.mk 2 (.ok [66])] (Part.mk 1 .readErr)
     (by decide) (by decide) rfl (by decide)⟩

/-! Reconciliation lemmas. -/

theorem mem_treeKeys_iff_any (m : FileTree) (k : String) :
    (m.any (fun kv => kv.1 = k)) = true ↔ k ∈ treeKeys m := by
  simp [treeKeys, List.any_eq_true, List.mem_map]

theorem foldl_setEntry_of_disjoint :
    ∀ (old acc : FileTree), (treeKeys old).Nodup →
      (∀ k ∈ treeKeys old, k ∉ treeKeys acc) →
      old.foldl (fun m kv => setEntry m kv.1 kv.2) acc = acc ++ old := by
  intro old
  induction old with
  | nil => intro acc _ _; simp
  | cons kv rest ih =>
    intro acc hnodup hdisj
    have hknotacc : kv.1 ∉ treeKeys acc :=
      hdisj kv.1 (by simp [treeKeys])
    have hset : setEntry acc kv.1 kv.2 = acc ++ [(kv.1, kv.2)] := by
      unfold setEntry
      rw [if_neg]
      intro hany
      exact hknotacc ((mem_treeKeys_iff_any acc kv.1).mp hany)
    have hnodup' : (treeKeys rest).Nodup := by
      simp only [treeKeys, List.map_cons, List.nodup_cons] at hnodup
      exact hnodup.2
    have hknotrest : kv.1 ∉ treeKeys rest := by
      simp only [treeKeys, List.map_cons, List.nodup_cons] at hnodup
      exact hnodup.1
    have hdisj' : ∀ k ∈ treeKeys rest, k ∉ treeKeys (acc ++ [(kv.1, kv.2)]) := by
      intro k hk
      simp only [treeKeys, List.map_append, List.mem_append, List.map_cons,
        List.map_nil, List.mem_singleton]
      rintro (hmem | rfl)
      · have hkcons : k ∈ treeKeys (kv :: rest) := by
          simp only [treeKeys, List.map_cons]
          exact List.mem_cons_of_mem _ hk
        exact hdisj k hkcons hmem
      · exact hknotrest hk
    simp only [List.foldl_cons, hset, ih (acc ++ [(kv.1, kv.2)]) hnodup' hdisj']
    simp

/-- With distinct relative paths (true of a real directory walk), the
`relativeMap` is the old tree itself. -/
theorem relativeMap_eq_self (change_old : FileTree)
    (h : (treeKeys change_old).Nodup) : relativeMap change_old = change_old := by
  unfold relativeMap
  rw [foldl_setEntry_of_disjoint change_old [] h (by simp [treeKeys])]
  simp

/-- C4 (amended): for every candidate file, reconciliation deletes it
when its path is shared with the reference tree and the two content
hashes agree, and retains it when the hashes differ or the path exists
only in the candidate tree; the function itself returns `void`, so no
changed-path list is part of the result. -/
theorem removeUnchangedFiles_policy (hash : List Nat → String)
    (change_old change : FileTree)
    (hold : (treeKeys change_old).Nodup) :
    ∀ p c, (p, c) ∈ change →
      ((∃ cOld, lookupTree change_old p = some cOld ∧ hash cOld = hash c) →
        (p, c) ∉ (removeUnchangedFiles hash change_old change).1) ∧
      ((∃ cOld, lookupTree change_old p = some cOld ∧ hash cOld ≠ hash c) →
        (p, c) ∈ (removeUnchangedFiles hash change_old change).1) ∧
      (lookupTree change_old p = none →
        (p, c) ∈ (removeUnchangedFiles hash change_old change).1) := by
  intro p c hmem
  unfold removeUnchangedFiles
  rw [relativeMap_eq_self change_old hold]
  refine ⟨?_, ?_, ?_⟩
  · rintro ⟨cOld, hlook, heq⟩ hin
    have := List.of_mem_filter hin
    simp only [hlook, decide_eq_true_eq] at this
    exact this heq
  · rintro ⟨cOld, hlook, hne⟩
    refine List.mem_filter.mpr ⟨hmem, ?_⟩
    simp only [hlook, decide_eq_true_eq]
    exact hne
  · intro hlook
    refine List.mem_filter.mpr ⟨hmem, ?_⟩
    simp [hlook]

/-- Witness for `removeUnchangedFiles_policy`: with an unchanged `a`, a
changed `b` and a candidate-only `c`, the candidate tree keeps exactly
`b` and `c`. -/
theorem removeUnchangedFiles_policy_witness :
    (treeKeys [("a", [1]), ("b", [2])]).Nodup ∧
    (("b", [3]) ∈ [("a", [1]), ("b", [3]), ("c", [4])]) ∧
    ((∃ cOld, lookupTree [("a", [1]), ("b", [2])] "b" = some cOld ∧
        (fun l : List Nat => String.mk (l.map Char.ofNat)) cOld ≠ (fun l : List Nat => String.mk (l.map Char.ofNat)) [3]) →
      ("b", [3]) ∈ (removeUnchangedFiles (fun l : List Nat => String.mk (l.map Char.ofNat))
        [("a", [1]), ("b", [2])] [("a", [1]), ("b", [3]), ("c", [4])]).1) :=
  ⟨by decide, by decide,
   ((removeUnchangedFiles_policy (fun l : List Nat => String.mk (l.map Char.ofNat))
      [("a", [1]), ("b", [2])] [("a", [1]), ("b", [3]), ("c", [4])]
      (by decide) "b" [3] (by decide)).2.1)⟩

/-- C4 counterexample: `removeUnchangedFiles` returns `Promise<void>` —
its return value is identical for two runs whose sets of retained paths
differ, so the retained (changed) paths cannot be recorded in any
returned changed-path list. -/
theorem removeUnchangedFiles_returns_no_list :
    (removeUnchangedFiles (fun _ => "h") [] [("a", [1])]).2
      = (removeUnchangedFiles (fun _ => "h") [] []).2 ∧
    (removeUnchangedFiles (fun _ => "h") [] [("a", [1])]).1
      ≠ (removeUnchangedFiles (fun _ => "h") [] []).1 := by
  constructor
  · rfl
  · decide

/-- C7 counterexample: `downloadDiffAssets` awaits `Promise.all(tasks)`
and discards the booleans; it writes no failed-download record.  Two
runs — one with every download succeeding, one with a task failing
terminally (HTTP 404) — produce the identical result `ok ()`, although
their failed-identifier sets differ, so the failed set is not surfaced
to the caller in any form. -/
theorem downloadDiffAssets_discards_failures :
    downloadDiffAssets (fun v => if v = "1" ∨ v = "2" then some "u" else none)
      "1" "2" "assets" ["a.bin"] [] (fun _ => none) (fun _ _ => .success [])
      = .ok () ∧
    downloadDiffAssets (fun v => if v = "1" ∨ v = "2" then some "u" else none)
      "1" "2" "assets" ["a.bin"] [] (fun _ => none) (fun _ _ => .httpError 404)
      = .ok () ∧
    failedTasks (fun _ => none) (fun _ _ => .httpError 404)
      (diffTasks ("assets" ++ "/" ++ "2") ["a.bin"] []) = ["a.bin"] ∧
    failedTasks (fun _ => none) (fun _ _ => .success [])
      (diffTasks ("assets" ++ "/" ++ "2") ["a.bin"] []) = [] := by
  refine ⟨rfl, rfl, ?_, ?_⟩ <;> decide

/-- C7 (amended, true part): terminal per-item download failures are not
thrown — when the URL registry resolves both versions, the batch always
resolves with `ok ()`, even when the set of failed identifiers is
non-empty; no sibling task is aborted and the run as a whole does not
fail.  (The failed identifiers themselves are only logged, not returned
or persisted.) -/
theorem downloadDiffAssets_failures_not_fatal
    (urlMap : String → Option String) (oldVersion newVersion assetsDir : String)
    (diffNew diffChange : List String) (fs : String → Option (List Nat))
    (outcomes : Nat → Nat → AttemptOutcome)
    (h1 : ∃ u, urlMap newVersion = some u) (h2 : ∃ u, urlMap oldVersion = some u)
    (hfail : failedTasks fs outcomes
      (diffTasks (assetsDir ++ "/" ++ newVersion) diffNew diffChange) ≠ []) :
    downloadDiffAssets urlMap oldVersion newVersion assetsDir diffNew diffChange
      fs outcomes = .ok () := by
  obtain ⟨u1, hu1⟩ := h1
  obtain ⟨u2, hu2⟩ := h2
  simp [downloadDiffAssets, hu1, hu2]

/-- Witness for `downloadDiffAssets_failures_not_fatal`. -/
theorem downloadDiffAssets_failures_not_fatal_witness :
    failedTasks (fun _ => none) (fun _ _ => .httpError 403)
      (diffTasks ("assets" ++ "/" ++ "2") ["a.bin"] []) ≠ [] ∧
    downloadDiffAssets (fun v => if v = "1" ∨ v = "2" then some "u" else none)
      "1" "2" "assets" ["a.bin"] [] (fun _ => none) (fun _ _ => .httpError 403)
      = .ok () :=
  ⟨by decide,
   downloadDiffAssets_failures_not_fatal
     (fun v => if v = "1" ∨ v = "2" then some "u" else none)
     "1" "2" "assets" ["a.bin"] [] (fun _ => none) (fun _ _ => .httpError 403)
     ⟨"u", rfl⟩ ⟨"u", rfl⟩ (by decide)⟩

/-! Parsing lemmas. -/

theorem isMidCh_of_isEndCh (c : Char) (h : isEndCh c = true) : isMidCh c = true := by
  simp only [isEndCh, Bool.or_eq_true] at h
  simp only [isMidCh, Bool.or_eq_true]
  tauto

theorem pref_takeWhile (q : Char → Bool) :
    ∀ (p l : List Char), p <+: l → (∀ x ∈ p, q x = true) →
      p <+: l.takeWhile q := by
  intro p
  induction p with
  | nil => intro l _ _; exact ⟨_, rfl⟩
  | cons a p' ih =>
    intro l hpre hall
    obtain ⟨tail, rfl⟩ := hpre
    have ha : q a = true := hall a (List.mem_cons_self _ _)
    rw [List.cons_append, List.takeWhile_cons_of_pos ha]
    exact List.cons_prefix_cons.mpr ⟨rfl, ih (p' ++ tail) ⟨tail, rfl⟩
      (fun x hx => hall x (List.mem_cons_of_mem _ hx))⟩

theorem lastEndPos_bounds :
    ∀ (l : List Char) (t : Nat), lastEndPos l = some t →
      1 ≤ t ∧ t ≤ l.length ∧ ∃ c, l[t - 1]? = some c ∧ isEndCh c = true := by
  intro l
  induction l with
  | nil => intro t h; simp [lastEndPos] at h
  | cons c cs ih =>
    intro t h
    rcases h' : lastEndPos cs with _ | t'
    · rw [lastEndPos, h'] at h
      by_cases hc : isEndCh c = true
      · rw [if_pos hc] at h
        obtain rfl : t = 1 := by injection h; omega
        exact ⟨le_refl _, by simp, c, by simp, hc⟩
      · rw [if_neg hc] at h
        exact absurd h (by simp)
    · rw [lastEndPos, h'] at h
      obtain rfl : t = t' + 1 := by injection h; omega
      obtain ⟨h1, h2, e, he, hend⟩ := ih t' h'
      refine ⟨by omega, by simp; omega, e, ?_, hend⟩
      have ht' : t' + 1 - 1 = (t' - 1) + 1 := by omega
      rw [ht', List.getElem?_cons_succ]
      exact he

theorem lastEndPos_eq_none :
    ∀ (l : List Char), lastEndPos l = none → ∀ c ∈ l, isEndCh c = false := by
  intro l
  induction l with
  | nil => intro _ c hc; exact absurd hc (List.not_mem_nil c)
  | cons c cs ih =>
    intro h d hd
    rcases h' : lastEndPos cs with _ | t'
    · rw [lastEndPos, h'] at h
      by_cases hc : isEndCh c = true
      · rw [if_pos hc] at h; exact absurd h (by simp)
      · rcases List.mem_cons.mp hd with rfl | hdcs
        · simpa using hc
        · exact ih h' d hdcs
    · rw [lastEndPos, h'] at h
      exact absurd h (by simp)

theorem matchTokenAt_some_spec (s : List Char) (len : Nat)
    (h : matchTokenAt s = some len) :
    2 ≤ len ∧ len ≤ s.length ∧ IsPathToken (s.take len) := by
  match s with
  | [] => simp [matchTokenAt] at h
  | c :: rest =>
    cases hlet : isLetterCh c with
    | false => simp [matchTokenAt, hlet] at h
    | true =>
      simp only [matchTokenAt, hlet, if_true] at h
      rcases hle : lastEndPos (rest.takeWhile isMidCh) with _ | t
      · rw [hle] at h; exact absurd h (by simp)
      · rw [hle] at h
        obtain rfl : len = t + 1 := by injection h; omega
        obtain ⟨h1, h2, e, he, hend⟩ := lastEndPos_bounds _ t hle
        obtain ⟨u, rfl⟩ : ∃ u, t = u + 1 := ⟨t - 1, by omega⟩
        simp only [Nat.add_sub_cancel] at he
        have hrunpre : rest.takeWhile isMidCh <+: rest :=
          ⟨rest.dropWhile isMidCh, List.takeWhile_append_dropWhile isMidCh rest⟩
        have hrunlen : (rest.takeWhile isMidCh).length ≤ rest.length :=
          hrunpre.length_le
        refine ⟨by omega, by simp; omega, ?_⟩
        have htake1 : (c :: rest).take (u + 1 + 1) = c :: rest.take (u + 1) := rfl
        have htake2 : rest.take (u + 1) = (rest.takeWhile isMidCh).take (u + 1) := by
          obtain ⟨tail, htail⟩ := hrunpre
          conv_lhs => rw [← htail]
          rw [List.take_append_eq_append_take,
            Nat.sub_eq_zero_of_le h2, List.take_zero, List.append_nil]
        have htake3 : (rest.takeWhile isMidCh).take (u + 1)
            = (rest.takeWhile isMidCh).take u ++ [e] := by
          rw [List.take_succ, he]
          rfl
        refine ⟨c, (rest.takeWhile isMidCh).take u, e, ?_, hlet, ?_, hend⟩
        · rw [htake1, htake2, htake3]
        · intro m hm
          exact List.mem_takeWhile_imp (List.mem_of_mem_take hm)

theorem matchTokenAt_none_no_token (s : List Char)
    (h : matchTokenAt s = none) (t : List Char) : ¬ tokenOccursAt s 0 t := by
  rintro ⟨⟨c, mid, e, rfl, hlet, hmid, hend⟩, htake⟩
  rw [List.drop_zero] at htake
  have hpre : (c :: (mid ++ [e])) <+: s := by
    rw [← htake]
    exact ⟨_, List.take_append_drop _ _⟩
  obtain ⟨tail, rfl⟩ := hpre
  rw [List.cons_append, matchTokenAt] at h
  simp only [hlet, if_true] at h
  rcases hle : lastEndPos ((mid ++ [e] ++ tail).takeWhile isMidCh) with _ | u
  · have hmidpre : (mid ++ [e]) <+: (mid ++ [e] ++ tail) := ⟨tail, rfl⟩
    have hallmid : ∀ x ∈ mid ++ [e], isMidCh x = true := by
      intro x hx
      rcases List.mem_append.mp hx with hx1 | hx2
      · exact hmid x hx1
      · rw [List.mem_singleton.mp hx2]
        exact isMidCh_of_isEndCh e hend
    have hsub : (mid ++ [e]) <+: (mid ++ [e] ++ tail).takeWhile isMidCh :=
      pref_takeWhile isMidCh _ _ hmidpre hallmid
    have hein : e ∈ (mid ++ [e] ++ tail).takeWhile isMidCh :=
      hsub.sublist.mem (List.mem_append_right mid (List.mem_singleton_self e))
    have := lastEndPos_eq_none _ hle e hein
    rw [hend] at this
    exact absurd this (by simp)
  · rw [hle] at h
    exact absurd h (by simp)

theorem tokensAuxF_ne_nil_of_occurs :
    ∀ (fuel : Nat) (s : List Char), s.length ≤ fuel →
      ∀ i t, tokenOccursAt s i t → tokensAuxF fuel s ≠ [] := by
  intro fuel
  induction fuel with
  | zero =>
    intro s hlen i t hocc
    have hs : s = [] := List.length_eq_zero.mp (Nat.le_zero.mp hlen)
    subst hs
    obtain ⟨⟨c, mid, e, rfl, _, _, _⟩, htake⟩ := hocc
    simp at htake
  | succ fuel ih =>
    intro s hlen i t hocc
    match s with
    | [] =>
      obtain ⟨⟨c, mid, e, rfl, _, _, _⟩, htake⟩ := hocc
      simp at htake
    | c :: rest =>
      rcases hm : matchTokenAt (c :: rest) with _ | len
      · rw [tokensAuxF, hm]
        cases i with
        | zero => exact absurd hocc (matchTokenAt_none_no_token _ hm t)
        | succ i' =>
          have hlen' : rest.length ≤ fuel := by
            simp only [List.length_cons] at hlen
            omega
          have hocc' : tokenOccursAt rest i' t := hocc
          exact ih rest hlen' i' t hocc'
      · rw [tokensAuxF, hm]
        exact List.cons_ne_nil _ _

theorem tokensAuxF_tokens_occur :
    ∀ (fuel : Nat) (s : List Char), s.length ≤ fuel →
      ∀ t ∈ tokensAuxF fuel s, ∃ i, tokenOccursAt s i t := by
  intro fuel
  induction fuel with
  | zero => intro s _ t ht; simp [tokensAuxF] at ht
  | succ fuel ih =>
    intro s hlen t ht
    match s with
    | [] => simp [tokensAuxF] at ht
    | c :: rest =>
      rcases hm : matchTokenAt (c :: rest) with _ | len
      · rw [tokensAuxF, hm] at ht
        have hlen' : rest.length ≤ fuel := by
          simp only [List.length_cons] at hlen
          omega
        obtain ⟨i, hocc⟩ := ih rest hlen' t ht
        exact ⟨i + 1, hocc⟩
      · rw [tokensAuxF, hm] at ht
        rcases List.mem_cons.mp ht with rfl | htl
        · obtain ⟨h2, hle, htok⟩ := matchTokenAt_some_spec _ len hm
          refine ⟨0, htok, ?_⟩
          rw [List.drop_zero, List.length_take, Nat.min_eq_left hle]
        · have hlen' : ((c :: rest).drop len).length ≤ fuel := by
            obtain ⟨h2, hle, _⟩ := matchTokenAt_some_spec _ len hm
            simp only [List.length_drop, List.length_cons] at *
            omega
          obtain ⟨i, hocc⟩ := ih ((c :: rest).drop len) hlen' t htl
          refine ⟨len + i, hocc.1, ?_⟩
          have hdd : (c :: rest).drop (len + i) = ((c :: rest).drop len).drop i := by
            rw [List.drop_drop, Nat.add_comm]
          rw [hdd]
          exact hocc.2

theorem findHashAux_hex :
    ∀ (l : List Char) (i pos : Nat) (hx : List Char),
      findHashAux l i = some (pos, hx) →
      hx.length = 64 ∧ hx.all isHexCh = true := by
  intro l
  induction l with
  | nil => intro i pos hx h; simp [findHashAux] at h
  | cons c rest ih =>
    intro i pos hx h
    rw [findHashAux] at h
    split at h
    · rename_i hcond
      have hpair : (i, rest.take 64) = (pos, hx) := by injection h
      obtain ⟨rfl, rfl⟩ := Prod.mk.injEq .. ▸ (by
        exact ⟨congrArg Prod.fst hpair, congrArg Prod.snd hpair⟩ :
          i = pos ∧ rest.take 64 = hx)
      exact ⟨hcond.2.1, hcond.2.2⟩
    · exact ih _ _ _ h

/-- C10: on a line containing a valid `@`-prefixed 64-hex-character hash
token (`findHash l = some (pos, hx)` — `hx` is 64 hex characters), the
line contributes no entry exactly when no path-like token (letter-led
run of letters, digits, `_`, `-`, `.`, `/` ending in a letter or digit)
occurs before the hash; and an extracted entry's path is such a token
occurring before the hash, namely the last of the leftmost greedy token
matches of the prefix. -/
theorem extractPathAndHash_token_before_hash (l : List Char) (pos : Nat)
    (hx : List Char) (hhash : findHash l = some (pos, hx)) :
    hx.length = 64 ∧ hx.all isHexCh = true ∧
    (extractPathAndHash l = none ↔ ∀ i t, ¬ tokenOccursAt (l.take pos) i t) ∧
    (∀ p h', extractPathAndHash l = some (p, h') →
      h' = String.mk hx ∧
      (∃ i, tokenOccursAt (l.take pos) i p.data) ∧
      (tokensOf (l.take pos)).getLast? = some p.data) := by
  obtain ⟨hlen64, hhex⟩ := findHashAux_hex l 0 pos hx hhash
  have hunfold : extractPathAndHash l
      = match (tokensOf (l.take pos)).getLast? with
        | none => none
        | some t => some (String.mk t, String.mk hx) := by
    rw [extractPathAndHash, hhash]
  refine ⟨hlen64, hhex, ?_, ?_⟩
  · constructor
    · intro hnone i t hocc
      rcases hlast : (tokensOf (l.take pos)).getLast? with _ | t0
      · have hnil : tokensOf (l.take pos) = [] :=
          List.getLast?_eq_none_iff.mp hlast
        exact tokensAuxF_ne_nil_of_occurs (l.take pos).length (l.take pos)
          (le_refl _) i t hocc hnil
      · rw [hunfold, hlast] at hnone
        exact absurd hnone (by simp)
    · intro hno
      rcases hlast : (tokensOf (l.take pos)).getLast? with _ | t0
      · rw [hunfold, hlast]
      · have ht0 : t0 ∈ tokensOf (l.take pos) := by
          obtain ⟨hne, heq⟩ := List.mem_getLast?_eq_getLast
            (Option.mem_def.mpr hlast)
          rw [heq]
          exact List.getLast_mem hne
        obtain ⟨i, hocc⟩ := tokensAuxF_tokens_occur (l.take pos).length
          (l.take pos) (le_refl _) t0 ht0
        exact absurd hocc (hno i t0)
  · intro p h' hsome
    rw [hunfold] at hsome
    rcases hlast : (tokensOf (l.take pos)).getLast? with _ | t0
    · rw [hlast] at hsome
      exact absurd hsome (by simp)
    · rw [hlast] at hsome
      have hp : p = String.mk t0 ∧ h' = String.mk hx := by
        injection hsome with h1
        exact ⟨(congrArg Prod.fst h1).symm, (congrArg Prod.snd h1).symm⟩
      obtain ⟨rfl, rfl⟩ := hp
      have ht0 : t0 ∈ tokensOf (l.take pos) := by
        obtain ⟨hne, heq⟩ := List.mem_getLast?_eq_getLast
          (Option.mem_def.mpr hlast)
        rw [heq]
        exact List.getLast_mem hne
      obtain ⟨i, hocc⟩ := tokensAuxF_tokens_occur (l.take pos).length
        (l.take pos) (le_refl _) t0 ht0
      exact ⟨rfl, ⟨i, hocc⟩, rfl⟩

/-- Witness for `extractPathAndHash_token_before_hash`: the line
`ab cd @` followed by 64 `0`s — two tokens precede the hash and `cd`
(the last one) becomes the path. -/
theorem extractPathAndHash_token_before_hash_witness :
    findHash ("ab cd @".data ++ List.replicate 64 '0')
      = some (6, List.replicate 64 '0') ∧
    ((List.replicate 64 '0' : List Char).length = 64 ∧
     (List.replicate 64 '0').all isHexCh = true ∧
     (extractPathAndHash ("ab cd @".data ++ List.replicate 64 '0') = none ↔
       ∀ i t, ¬ tokenOccursAt (("ab cd @".data ++ List.replicate 64 '0').take 6) i t) ∧
     (∀ p h', extractPathAndHash ("ab cd @".data ++ List.replicate 64 '0')
         = some (p, h') →
       h' = String.mk (List.replicate 64 '0') ∧
       (∃ i, tokenOccursAt (("ab cd @".data ++ List.replicate 64 '0').take 6) i
         p.data) ∧
       (tokensOf (("ab cd @".data ++ List.replicate 64 '0').take 6)).getLast?
         = some p.data)) :=
  ⟨by decide, extractPathAndHash_token_before_hash _ 6 _ (by decide)⟩

theorem foldl_assetMap_const :
    ∀ (lines : List (List Char)) (m : AssetMap),
      (∀ line ∈ lines, extractPathAndHash line = none) →
      lines.foldl (fun m line =>
        match extractPathAndHash line with
        | some ph => mapSet m ph.1 ph.2
        | none => m) m = m := by
  intro lines
  induction lines with
  | nil => intro m _; rfl
  | cons line rest ih =>
    intro m hall
    rw [List.foldl_cons]
    simp only [hall line (List.mem_cons_self _ _)]
    exact ih m (fun x hx => hall x (List.mem_cons_of_mem _ hx))

/-- C8 counterexample: a manifest whose single line is malformed parses
to an *empty* map and the comparison still proceeds, producing an
ordinary diff result (every path of the other manifest reported as
added) — no hard error is raised for zero valid entries. -/
theorem compareVersions_proceeds_on_zero_entries :
    readFileToAssetMap ["hello world".data] = [] ∧
    compareVersions (readFileToAssetMap ["hello world".data]) [("a.bin", "h1")]
      = { added := ["a.bin"], changed := [] } := by
  constructor <;> rfl

/-- C8 (amended): a manifest that is malformed (every line yields no
entry) parses to the empty map, and the comparison proceeds normally on
it: every path of the new manifest is reported as added and nothing as
changed.  Parsing failure is silent, not a hard error. -/
theorem readFileToAssetMap_zero_entries_no_error
    (lines : List (List Char)) (newMap : AssetMap)
    (hbad : ∀ line ∈ lines, extractPathAndHash line = none) :
    readFileToAssetMap lines = [] ∧
    compareVersions (readFileToAssetMap lines) newMap
      = { added := sortPaths (mapKeys newMap), changed := [] } := by
  have hempty : readFileToAssetMap lines = [] :=
    foldl_assetMap_const lines [] hbad
  refine ⟨hempty, ?_⟩
  rw [hempty]
  unfold compareVersions
  have h1 : (mapKeys newMap).filter (fun p => ¬ hasKey [] p) = mapKeys newMap :=
    List.filter_eq_self.mpr (fun a _ => by simp [hasKey])
  have h2 : (mapKeys newMap).filter
      (fun p => hasKey [] p ∧ getVal newMap p ≠ getVal [] p) = [] :=
    List.filter_eq_nil_iff.mpr (fun a _ => by simp [hasKey])
  rw [h1, h2]
  rfl

/-- Witness for `readFileToAssetMap_zero_entries_no_error`. -/
theorem readFileToAssetMap_zero_entries_no_error_witness :
    (∀ line ∈ [("hi there".data : List Char)], extractPathAndHash line = none) ∧
    (readFileToAssetMap [("hi there".data : List Char)] = [] ∧
     compareVersions (readFileToAssetMap [("hi there".data : List Char)])
        [("a.bin", "h1")]
       = { added := sortPaths (mapKeys [("a.bin", "h1")]), changed := [] }) :=
  ⟨by decide, readFileToAssetMap_zero_entries_no_error _ _ (by decide)⟩

end Garupa
